import Mathlib

/-
Verification development for the goaws request-signing library.

The Go source (context.go, sqs.go) is shallowly embedded below:

* `Context` models the credential context (access key id + secret key).
* `Values` models Go's `url.Values` (`map[string][]string`).  A Go map is an
  unordered finite map; we represent it as an association list from keys to
  value lists.  Map iteration order is irrelevant to the program because
  `url.Values.Encode` sorts the keys, which the embedding mirrors.
* `Request` models the parts of `http.Request` read and written by the signer:
  method, `URL.Host`, `URL.Path`, and the query parameters.  The query string
  is modeled in decoded form as an ordered list of key/value pairs (the pair
  sequence that `url.ParseQuery` reads from `RawQuery`); Go's percent-escaping
  round-trips exactly, so the decoded pair list carries the same information
  as the raw string.
* Strings are compared character-wise by code point (`charListCmp`).  Go's
  `sort.Strings` compares byte-wise; on UTF-8 encoded strings byte-wise
  lexicographic order coincides with code-point lexicographic order.
* The wall-clock timestamp `time.Now().UTC().Format(time.RFC3339)` that the
  default profile injects is passed in as the explicit parameter `now`
  (the already-formatted RFC 3339 string), making the signer a pure function
  of its inputs as required to state any property about it.
-/

/-! ### Character-list lexicographic comparison (Go string ordering) -/

def charListCmp : List Char → List Char → Ordering
  | [], [] => .eq
  | [], _ :: _ => .lt
  | _ :: _, [] => .gt
  | a :: as, b :: bs =>
    if a < b then .lt else if b < a then .gt else charListCmp as bs

/-- The order on strings used by `sort.Strings`: lexicographic on the
character sequence. -/
def strLe (s t : String) : Prop := charListCmp s.data t.data ≠ Ordering.gt

instance : DecidableRel strLe := fun s t =>
  inferInstanceAs (Decidable (charListCmp s.data t.data ≠ Ordering.gt))

/-! ### Splitting and joining on a separator character
(`strings.Split` / `strings.Join` restricted to a one-character separator) -/

def splitOnChar (sep : Char) : List Char → List (List Char)
  | [] => [[]]
  | c :: rest =>
    let r := splitOnChar sep rest
    if c = sep then [] :: r
    else
      match r with
      | [] => [[c]]
      | h :: t => (c :: h) :: t

def joinSep (sep : Char) : List (List Char) → List Char
  | [] => []
  | [s] => s
  | s :: rest => s ++ sep :: joinSep sep rest

/-- `strings.Split(s, sep)` for a single-character separator. -/
def strSplit (sep : Char) (s : String) : List String :=
  (splitOnChar sep s.data).map String.mk

/-- `strings.Join(l, sep)` for a single-character separator. -/
def strJoin (sep : Char) (l : List String) : String :=
  ⟨joinSep sep (l.map String.data)⟩

/-! ### Percent-escaping (`url.QueryEscape`) and the corrections from `Context.sign` -/

/-- UTF-8 encoding of a code point, as byte values. -/
def utf8EncodeNat (n : Nat) : List Nat :=
  if n < 128 then [n]
  else if n < 2048 then [192 + n / 64, 128 + n % 64]
  else if n < 65536 then [224 + n / 4096, 128 + (n / 64) % 64, 128 + n % 64]
  else [240 + n / 262144, 128 + (n / 4096) % 64, 128 + (n / 64) % 64, 128 + n % 64]

/-- The bytes of a string (Go strings are byte sequences; Lean strings are
character sequences, so we UTF-8 encode). -/
def utf8Bytes (s : String) : List Nat :=
  s.data.flatMap (fun c => utf8EncodeNat c.toNat)

def hexUpperDigits : List Char :=
  ['0', '1', '2', '3', '4', '5', '6', '7', '8', '9', 'A', 'B', 'C', 'D', 'E', 'F']

def hexUpperDigit (n : Nat) : Char := hexUpperDigits.getD n '0'

/-- A byte that `url.QueryEscape` leaves unescaped: ASCII alphanumerics
and `-` `.` `_` `~`. -/
def isUnreservedByte (b : Nat) : Bool :=
  (48 ≤ b && b ≤ 57) || (65 ≤ b && b ≤ 90) || (97 ≤ b && b ≤ 122) ||
    b == 45 || b == 46 || b == 95 || b == 126

/-- How `url.QueryEscape` renders one byte: unreserved bytes stand for
themselves, a space becomes `+`, anything else becomes `%XX` with
upper-case hex. -/
def escByte (b : Nat) : List Char :=
  if isUnreservedByte b then [Char.ofNat b]
  else if b == 32 then ['+']
  else ['%', hexUpperDigit (b / 16), hexUpperDigit (b % 16)]

/-- `url.QueryEscape`. -/
def queryEscape (s : String) : String :=
  ⟨(utf8Bytes s).flatMap escByte⟩

/-- One character-to-string substitution, the semantics of
`strings.Replace(s, old, new, -1)` for a one-character `old`. -/
def substChar (c : Char) (rep : List Char) (x : Char) : List Char :=
  if x = c then rep else [x]

/-- The three query-string corrections applied by `Context.sign`, in source
order: `+`→`%20`, `(`→`%28`, `)`→`%29`. -/
def corrections (l : List Char) : List Char :=
  ((l.flatMap (substChar '+' ['%', '2', '0'])).flatMap
      (substChar '(' ['%', '2', '8'])).flatMap
    (substChar ')' ['%', '2', '9'])

def signCorrections (s : String) : String := ⟨corrections s.data⟩

/-! ### `url.Values` (`map[string][]string`) as an association list -/

abbrev Values := List (String × List String)

/-- `url.Values.Add` semantics (used by `url.ParseQuery`): append `val` to
the value list of `k`, creating the key if absent. -/
def Values.add : Values → String → String → Values
  | [], k, val => [(k, [val])]
  | (k', vs) :: rest, k, val =>
    if k' = k then (k', vs ++ [val]) :: rest
    else (k', vs) :: Values.add rest k val

/-- `url.Values.Set`: replace the value list of `k` by the single value
`val`, creating the key if absent. -/
def Values.set : Values → String → String → Values
  | [], k, val => [(k, [val])]
  | (k', vs) :: rest, k, val =>
    if k' = k then (k', [val]) :: rest
    else (k', vs) :: Values.set rest k val

/-- `url.ParseQuery` applied to a decoded pair sequence: add each pair in
input order. -/
def Values.ofPairs (q : List (String × String)) : Values :=
  q.foldl (fun v p => Values.add v p.1 p.2) []

/-- All key/value pairs held by a `Values`, entry by entry. -/
def Values.graph (v : Values) : List (String × String) :=
  v.flatMap (fun e => e.2.map (fun val => (e.1, val)))

/-- Ordering of map entries by key, as `url.Values.Encode` sorts keys with
`sort.Strings`. -/
def entryKeyLe (a b : String × List String) : Prop := strLe a.1 b.1

instance : DecidableRel entryKeyLe := fun a b =>
  inferInstanceAs (Decidable (strLe a.1 b.1))

def Values.sortByKey (v : Values) : Values := List.insertionSort entryKeyLe v

/-- One `key=value` component of `url.Values.Encode`. -/
def encodePair (p : String × String) : String :=
  queryEscape p.1 ++ "=" ++ queryEscape p.2

/-- `url.Values.Encode`: keys sorted, every pair escaped as `key=value`,
joined with `&`. -/
def Values.encode (v : Values) : String :=
  strJoin '&' ((Values.sortByKey v).graph.map encodePair)

/-- The decoded pair sequence that `url.ParseQuery` reads back from
`Encode`'s output (escaping round-trips exactly). -/
def Values.decodedPairs (v : Values) : List (String × String) :=
  (Values.sortByKey v).graph

/-! ### Credentials, requests, signing profiles (context.go) -/

/-- A context object holds the credentials needed to sign AWS requests. -/
structure Context where
  keyId : String
  key : String

def NewContext (accessKeyId accessKey : String) : Context :=
  { keyId := accessKeyId, key := accessKey }

/-- The parts of `http.Request` the signer reads and writes.  `query` is the
request's query string in decoded pair form. -/
structure Request where
  method : String
  host : String
  path : String
  query : List (String × String)

/-- `signingContext` is an `int` in the source; `defaultHTTPSigningContext`
and `purchaseSigningContext` are the two declared constants (iota 0, 1). -/
def defaultHTTPSigningContext : Nat := 0

def purchaseSigningContext : Nat := 1

/-- `signingContext.getValues`.  The `panic("Unknown signing context")` for a
value outside the two declared constants is modeled as `none`.  The `now`
parameter stands for `time.Now().UTC().Format(time.RFC3339)`. -/
def getValues (sc : Nat) (c : Context) (now : String) (r : Request) : Option Values :=
  let params := Values.ofPairs r.query
  if sc = defaultHTTPSigningContext then
    some ((((params.set "Timestamp" now).set "AWSAccessKeyId" c.keyId).set
        "SignatureVersion" "2").set "SignatureMethod" "HmacSHA256")
  else if sc = purchaseSigningContext then
    some (((params.set "accessKey" c.keyId).set "signatureVersion" "2").set
        "signatureMethod" "HmacSHA256")
  else none

/-- `signingContext.addSignature`; the `default: panic` branch is `none`. -/
def addSignature (sc : Nat) (v : Values) (signature : String) : Option Values :=
  if sc = defaultHTTPSigningContext then some (v.set "Signature" signature)
  else if sc = purchaseSigningContext then some (v.set "signature" signature)
  else none

/-! ### SHA-256, HMAC and base64 (crypto/hmac, crypto/sha256, encoding/base64) -/

def M32 : Nat := 4294967296

def rotr (n x : Nat) : Nat := ((x >>> n) ||| (x <<< (32 - n))) % M32

def shaK : List Nat :=
  [1116352408, 1899447441, 3049323471, 3921009573, 961987163, 1508970993,
   2453635748, 2870763221, 3624381080, 310598401, 607225278, 1426881987,
   1925078388, 2162078206, 2614888103, 3248222580, 3835390401, 4022224774,
   264347078, 604807628, 770255983, 1249150122, 1555081692, 1996064986,
   2554220882, 2821834349, 2952996808, 3210313671, 3336571891, 3584528711,
   113926993, 338241895, 666307205, 773529912, 1294757372, 1396182291,
   1695183700, 1986661051, 2177026350, 2456956037, 2730485921, 2820302411,
   3259730800, 3345764771, 3516065817, 3600352804, 4094571909, 275423344,
   430227734, 506948616, 659060556, 883997877, 958139571, 1322822218,
   1537002063, 1747873779, 1955562222, 2024104815, 2227730452, 2361852424,
   2428436474, 2756734187, 3204031479, 3329325298]

def shaH0 : List Nat :=
  [1779033703, 3144134277, 1013904242, 2773480762, 1359893119, 2600822924,
   528734635, 1541459225]

def smallSigma0 (x : Nat) : Nat := (rotr 7 x) ^^^ (rotr 18 x) ^^^ (x >>> 3)

def smallSigma1 (x : Nat) : Nat := (rotr 17 x) ^^^ (rotr 19 x) ^^^ (x >>> 10)

def bigSigma0 (x : Nat) : Nat := (rotr 2 x) ^^^ (rotr 13 x) ^^^ (rotr 22 x)

def bigSigma1 (x : Nat) : Nat := (rotr 6 x) ^^^ (rotr 11 x) ^^^ (rotr 25 x)

def bytesToWords : List Nat → List Nat
  | b0 :: b1 :: b2 :: b3 :: rest =>
    (((b0 * 256 + b1) * 256 + b2) * 256 + b3) :: bytesToWords rest
  | _ => []

def extendW : List Nat → Nat → List Nat
  | w, 0 => w
  | w, Nat.succ k =>
    let n := w.length
    let x := (smallSigma1 (w.getD (n - 2) 0) + w.getD (n - 7) 0 +
      smallSigma0 (w.getD (n - 15) 0) + w.getD (n - 16) 0) % M32
    extendW (w ++ [x]) k

def compressStep (st : List Nat) (kw : Nat × Nat) : List Nat :=
  match st with
  | [a, b, c, d, e, f, g, h] =>
    let s1 := bigSigma1 e
    let ch := (e &&& f) ^^^ ((e ^^^ 4294967295) &&& g)
    let temp1 := (h + s1 + ch + kw.1 + kw.2) % M32
    let s0 := bigSigma0 a
    let maj := (a &&& b) ^^^ (a &&& c) ^^^ (b &&& c)
    let temp2 := (s0 + maj) % M32
    [(temp1 + temp2) % M32, a, b, c, (d + temp1) % M32, e, f, g]
  | other => other

def compressBlock (st : List Nat) (block : List Nat) : List Nat :=
  let w := extendW (bytesToWords block) 48
  let st2 := (shaK.zip w).foldl compressStep st
  (st.zip st2).map (fun p => (p.1 + p.2) % M32)

def toBlocks (l : List Nat) : List (List Nat) :=
  if h : l = [] then []
  else l.take 64 :: toBlocks (l.drop 64)
termination_by l.length
decreasing_by
  simp only [List.length_drop]
  have : 0 < l.length := List.length_pos.mpr h
  omega

def wordBytes (w : Nat) : List Nat :=
  [w / 16777216 % 256, w / 65536 % 256, w / 256 % 256, w % 256]

def lenBytes64 (n : Nat) : List Nat :=
  [n / 72057594037927936 % 256, n / 281474976710656 % 256,
   n / 1099511627776 % 256, n / 4294967296 % 256, n / 16777216 % 256,
   n / 65536 % 256, n / 256 % 256, n % 256]

def sha256 (msg : List Nat) : List Nat :=
  let padded := msg ++ 128 :: (List.replicate ((64 - (msg.length + 9) % 64) % 64) 0 ++
    lenBytes64 (msg.length * 8))
  ((toBlocks padded).foldl compressBlock shaH0).flatMap wordBytes

def hmacSha256 (key msg : List Nat) : List Nat :=
  let k0 := if 64 < key.length then sha256 key else key
  let k := k0 ++ List.replicate (64 - k0.length) 0
  let ipad := k.map (fun b => b ^^^ 54)
  let opad := k.map (fun b => b ^^^ 92)
  sha256 (opad ++ sha256 (ipad ++ msg))

def b64Alphabet : List Char :=
  "ABCDEFGHIJKLMNOPQRSTUVWXYZabcdefghijklmnopqrstuvwxyz0123456789+/".data

def b64Char (n : Nat) : Char := b64Alphabet.getD n 'A'

def base64Chunks : List Nat → List Char
  | b0 :: b1 :: b2 :: rest =>
    b64Char (b0 / 4) :: b64Char ((b0 % 4) * 16 + b1 / 16) ::
      b64Char ((b1 % 16) * 4 + b2 / 64) :: b64Char (b2 % 64) :: base64Chunks rest
  | [b0, b1] => [b64Char (b0 / 4), b64Char ((b0 % 4) * 16 + b1 / 16),
    b64Char ((b1 % 16) * 4), '=']
  | [b0] => [b64Char (b0 / 4), b64Char ((b0 % 4) * 16), '=', '=']
  | [] => []

/-- `base64.StdEncoding.EncodeToString`. -/
def base64Encode (bytes : List Nat) : String := ⟨base64Chunks bytes⟩

/-! ### `Context.sign` (context.go lines 100-126) -/

/-- Steps 2-5 of the canonicalization in `Context.sign`: encode the
parameters, split the encoding on `&`, sort the components, join them back
with `&`, and apply the three character corrections. -/
def canonicalQuery (params : Values) : String :=
  signCorrections (strJoin '&'
    (List.insertionSort strLe (strSplit '&' (Values.encode params))))

/-- The `signString` buffer built in `Context.sign`: method, host, path and
corrected query string joined by single newlines (no trailing newline). -/
def mkStringToSign (method host path qs : String) : String :=
  method ++ "\n" ++ host ++ "\n" ++ path ++ "\n" ++ qs

/-- Base64 of the HMAC-SHA256 of the string-to-sign, keyed by the raw bytes
of the secret key. -/
def signatureOf (c : Context) (sts : String) : String :=
  base64Encode (hmacSha256 (utf8Bytes c.key) (utf8Bytes sts))

/-- The string-to-sign computed by `Context.sign` for a given profile. -/
def stringToSignOf (c : Context) (sc : Nat) (now : String) (r : Request) :
    Option String :=
  (getValues sc c now r).map
    (fun params => mkStringToSign r.method r.host r.path (canonicalQuery params))

/-- The signature value computed by `Context.sign`. -/
def signatureValue (c : Context) (sc : Nat) (now : String) (r : Request) :
    Option String :=
  (stringToSignOf c sc now r).map (fun sts => signatureOf c sts)

/-- `Context.sign`: merge profile parameters, canonicalize, sign, attach the
signature, and re-serialize the query (`r.URL.RawQuery = params.Encode()`,
given here in decoded pair form). -/
def sign (c : Context) (sc : Nat) (now : String) (r : Request) : Option Request :=
  (getValues sc c now r).bind (fun params =>
    (addSignature sc params (signatureOf c
        (mkStringToSign r.method r.host r.path (canonicalQuery params)))).map
      (fun params2 =>
        { method := r.method, host := r.host, path := r.path,
          query := Values.decodedPairs params2 }))

/-- `Context.SignRequest`: sign with the default profile. -/
def SignRequest (c : Context) (now : String) (r : Request) : Option Request :=
  sign c defaultHTTPSigningContext now r

/-! ### `Queue.ReceiveMessages` (sqs.go) -/

/-- A context holder for the data of an SQS queue. -/
structure Queue where
  url : String

def NewQueue (url : String) : Queue := { url := url }

/-- The validation and query-parameter construction of `Queue.ReceiveMessages`
(sqs.go lines 57-74).  `waitNs` is the `time.Duration` argument in
nanoseconds; `int(wait.Seconds())` truncates the duration's seconds toward
zero, i.e. `Int.tdiv waitNs 1000000000` (the float64 rounding in
`Duration.Seconds` cannot move the truncated value across the validated
bounds for any int64 duration).  URL assembly, signing and the HTTP round
trip follow the validation in the source, cannot reject the arguments, and
are out of scope here; on success the function returns the parameter set
that the method goes on to sign and send. -/
def Queue.receiveMessages (q : Queue) (c : Context) (max : Int) (waitNs : Int) :
    Except String Values :=
  let seconds : Int := Int.tdiv waitNs 1000000000
  if seconds < 0 ∨ 20 < seconds then
    Except.error ("Wait time must be no longer than 20 seconds. Got: " ++ toString seconds)
  else if max < 0 ∨ 10 < max then
    Except.error ("Max messages must be no larger than 10. Got: " ++ toString max)
  else
    Except.ok (Values.set (Values.set (Values.set (Values.set (Values.set []
      "Action" "ReceiveMessage") "MaxNumberOfMessages" (toString max))
      "VisibilityTimeout" "5") "WaitTimeSeconds" (toString seconds))
      "Version" "2009-02-01")

/-- The field names injected by the default profile (and by no other), as
enumerated by the spec's profile-specific field-name property. -/
def uppercaseSigningFields : List String :=
  ["AWSAccessKeyId", "SignatureVersion", "SignatureMethod", "Signature", "Timestamp"]

/-! ### Lemmas -/

theorem charListCmp_eq_iff : ∀ {a b : List Char}, charListCmp a b = .eq ↔ a = b := by
  intro a
  induction a with
  | nil => intro b; cases b <;> simp [charListCmp]
  | cons x xs ih =>
    intro b
    cases b with
    | nil => simp [charListCmp]
    | cons y ys =>
      simp only [charListCmp]
      by_cases hxy : x < y
      · simp only [hxy, if_true, ite_true]
        constructor
        · intro h; exact absurd h (by decide)
        · intro h
          injection h with h1 _
          exact absurd (h1 ▸ hxy) (lt_irrefl y)
      · by_cases hyx : y < x
        · simp only [hxy, hyx, if_false, if_true, ite_false, ite_true]
          constructor
          · intro h; exact absurd h (by decide)
          · intro h
            injection h with h1 _
            exact absurd (h1 ▸ hyx) (lt_irrefl y)
        · have hx : x = y := le_antisymm (not_lt.mp hyx) (not_lt.mp hxy)
          simp [hxy, hyx, hx, ih]

theorem charListCmp_refl (a : List Char) : charListCmp a a = .eq :=
  charListCmp_eq_iff.mpr rfl

theorem charListCmp_swap : ∀ (a b : List Char),
    charListCmp a b = .lt ↔ charListCmp b a = .gt := by
  intro a
  induction a with
  | nil => intro b; cases b <;> simp [charListCmp]
  | cons x xs ih =>
    intro b
    cases b with
    | nil => simp [charListCmp]
    | cons y ys =>
      simp only [charListCmp]
      by_cases hxy : x < y
      · have hyx : ¬ y < x := asymm hxy
        simp [hxy, hyx]
      · by_cases hyx : y < x
        · simp [hxy, hyx]
        · simp [hxy, hyx, ih]

theorem charListCmp_le_trans : ∀ {a b c : List Char},
    charListCmp a b ≠ .gt → charListCmp b c ≠ .gt → charListCmp a c ≠ .gt := by
  intro a
  induction a with
  | nil =>
    intro b c _ _
    cases c <;> simp [charListCmp]
  | cons x xs ih =>
    intro b c hab hbc
    cases b with
    | nil => simp [charListCmp] at hab
    | cons y ys =>
      cases c with
      | nil => simp [charListCmp] at hbc
      | cons z zs =>
        simp only [charListCmp] at hab hbc ⊢
        by_cases hxy : x < y
        · -- x < y ≤ z
          by_cases hyz : y < z
          · have hxz : x < z := lt_trans hxy hyz
            simp [hxz]
          · by_cases hzy : z < y
            · simp [hyz, hzy] at hbc
            · have hzy' : z = y := le_antisymm (not_lt.mp hyz) (not_lt.mp hzy)
              have hxz : x < z := hzy' ▸ hxy
              simp [hxz]
        · by_cases hyx : y < x
          · simp [hxy, hyx] at hab
          · have hxy' : x = y := le_antisymm (not_lt.mp hyx) (not_lt.mp hxy)
            simp only [hxy, hyx, if_neg, ite_false] at hab
            by_cases hyz : y < z
            · have hxz : x < z := hxy' ▸ hyz
              simp [hxz]
            · by_cases hzy : z < y
              · simp [hyz, hzy] at hbc
              · have hyz' : y = z := le_antisymm (not_lt.mp hzy) (not_lt.mp hyz)
                have hxz : ¬ x < z := by rw [hxy', hyz']; exact lt_irrefl z
                have hzx : ¬ z < x := by rw [hxy', hyz']; exact lt_irrefl z
                simp only [hyz, hzy, if_neg, ite_false] at hbc
                simp [hxz, hzx]
                exact ih hab hbc

theorem strLe_total : ∀ (s t : String), strLe s t ∨ strLe t s := by
  intro s t
  unfold strLe
  rcases h : charListCmp s.data t.data with _ | _ | _
  · left; simp [h]
  · left; simp [h]
  · right
    have := (charListCmp_swap t.data s.data).mpr h
    simp [this]

theorem strLe_trans : ∀ (s t u : String), strLe s t → strLe t u → strLe s u :=
  fun _ _ _ hab hbc => charListCmp_le_trans hab hbc

theorem strLe_antisymm : ∀ (s t : String), strLe s t → strLe t s → s = t := by
  intro s t hst hts
  unfold strLe at hst hts
  rcases h : charListCmp s.data t.data with _ | _ | _
  · exact absurd ((charListCmp_swap s.data t.data).mp h) hts
  · have : s.data = t.data := charListCmp_eq_iff.mp h
    cases s; cases t; exact congrArg String.mk this
  · exact absurd h hst

theorem splitOnChar_ne_nil (sep : Char) : ∀ (l : List Char), splitOnChar sep l ≠ [] := by
  intro l
  induction l with
  | nil => simp [splitOnChar]
  | cons c rest ih =>
    simp only [splitOnChar]
    by_cases h : c = sep
    · simp [h]
    · simp only [h, if_false, ite_false]
      rcases hr : splitOnChar sep rest with _ | ⟨h', t'⟩
      · simp
      · simp

theorem splitOnChar_no_sep {sep : Char} : ∀ {s : List Char}, sep ∉ s →
    splitOnChar sep s = [s] := by
  intro s
  induction s with
  | nil => intro _; rfl
  | cons c rest ih =>
    intro hmem
    have hc : c ≠ sep := fun h => hmem (h ▸ List.mem_cons_self c rest)
    have hrest : sep ∉ rest := fun h => hmem (List.mem_cons_of_mem c h)
    simp only [splitOnChar, hc, if_false, ite_false, ih hrest]

theorem splitOnChar_append_sep {sep : Char} : ∀ {s : List Char} (m : List Char), sep ∉ s →
    splitOnChar sep (s ++ sep :: m) = s :: splitOnChar sep m := by
  intro s
  induction s with
  | nil => intro m _; simp [splitOnChar]
  | cons c rest ih =>
    intro m hmem
    have hc : c ≠ sep := fun h => hmem (h ▸ List.mem_cons_self c rest)
    have hrest : sep ∉ rest := fun h => hmem (List.mem_cons_of_mem c h)
    have := ih m hrest
    simp only [List.cons_append, splitOnChar, hc, if_false, ite_false, List.append_eq, this]

theorem splitOnChar_joinSep {sep : Char} : ∀ {l : List (List Char)}, l ≠ [] →
    (∀ s ∈ l, sep ∉ s) → splitOnChar sep (joinSep sep l) = l := by
  intro l
  induction l with
  | nil => intro h _; exact absurd rfl h
  | cons s rest ih =>
    intro _ hmem
    cases rest with
    | nil =>
      simp only [joinSep]
      exact splitOnChar_no_sep (hmem s (List.mem_cons_self s []))
    | cons s2 rest2 =>
      have hs : sep ∉ s := hmem s (List.mem_cons_self s _)
      have hrest : ∀ t ∈ s2 :: rest2, sep ∉ t := fun t ht => hmem t (List.mem_cons_of_mem s ht)
      have hjoin : joinSep sep (s :: s2 :: rest2) = s ++ sep :: joinSep sep (s2 :: rest2) := rfl
      rw [hjoin, splitOnChar_append_sep _ hs, ih (by simp) hrest]

theorem strSplit_strJoin {sep : Char} {l : List String} (h : l ≠ [])
    (hmem : ∀ s ∈ l, sep ∉ s.data) : strSplit sep (strJoin sep l) = l := by
  unfold strSplit strJoin
  have h1 : l.map String.data ≠ [] := by simpa using h
  have h2 : ∀ s ∈ l.map String.data, sep ∉ s := by
    intro s hs
    rcases List.mem_map.mp hs with ⟨t, ht, rfl⟩
    exact hmem t ht
  rw [splitOnChar_joinSep h1 h2, List.map_map]
  have : (String.mk ∘ String.data) = id := by
    funext s; cases s; rfl
  rw [this, List.map_id]

theorem utf8EncodeNat_lt_256 {n : Nat} (hn : n < 1114112) :
    ∀ b ∈ utf8EncodeNat n, b < 256 := by
  intro b hb
  unfold utf8EncodeNat at hb
  by_cases h1 : n < 128
  · simp [h1] at hb; omega
  · by_cases h2 : n < 2048
    · simp [h1, h2] at hb
      rcases hb with h | h <;> omega
    · by_cases h3 : n < 65536
      · simp [h1, h2, h3] at hb
        rcases hb with h | h | h <;> omega
      · simp [h1, h2, h3] at hb
        rcases hb with h | h | h | h <;> omega

theorem char_toNat_lt (c : Char) : c.toNat < 1114112 := by
  have h := c.valid
  have heq : c.toNat = c.val.toNat := rfl
  rcases h with h | h
  · rw [heq]; omega
  · rw [heq]; omega

theorem utf8Bytes_lt_256 (s : String) : ∀ b ∈ utf8Bytes s, b < 256 := by
  intro b hb
  unfold utf8Bytes at hb
  rcases List.mem_flatMap.mp hb with ⟨c, _, hbc⟩
  exact utf8EncodeNat_lt_256 (char_toNat_lt c) b hbc

set_option maxRecDepth 4096 in
theorem escByte_no_amp_nl : ∀ b, b < 256 →
    ('&' ∉ escByte b ∧ '\n' ∉ escByte b) := by decide

set_option maxRecDepth 4096 in
theorem corrections_escByte : ∀ b, b < 256 →
    corrections (escByte b) = (if b = 32 then ['%', '2', '0'] else escByte b) := by decide

/-! ### Lemmas about `Values` -/

theorem Values.graph_nil : Values.graph [] = [] := rfl

theorem Values.graph_cons (k : String) (vs : List String) (rest : Values) :
    Values.graph ((k, vs) :: rest) =
      vs.map (fun x => (k, x)) ++ Values.graph rest := rfl

theorem Values.add_cons_eq {k' k : String} (vs : List String) (rest : Values)
    (val : String) (h : k' = k) :
    Values.add ((k', vs) :: rest) k val = (k', vs ++ [val]) :: rest := by
  simp [Values.add, h]

theorem Values.add_cons_ne {k' k : String} (vs : List String) (rest : Values)
    (val : String) (h : ¬ k' = k) :
    Values.add ((k', vs) :: rest) k val = (k', vs) :: Values.add rest k val := by
  simp [Values.add, h]

theorem Values.set_cons_eq {k' k : String} (vs : List String) (rest : Values)
    (val : String) (h : k' = k) :
    Values.set ((k', vs) :: rest) k val = (k', [val]) :: rest := by
  simp [Values.set, h]

theorem Values.set_cons_ne {k' k : String} (vs : List String) (rest : Values)
    (val : String) (h : ¬ k' = k) :
    Values.set ((k', vs) :: rest) k val = (k', vs) :: Values.set rest k val := by
  simp [Values.set, h]

theorem Values.mem_keys_of_mem_graph {v : Values} {p : String × String}
    (h : p ∈ Values.graph v) : p.1 ∈ v.map Prod.fst := by
  rcases List.mem_flatMap.mp h with ⟨e, he, hp⟩
  rcases List.mem_map.mp hp with ⟨val, _, rfl⟩
  exact List.mem_map.mpr ⟨e, he, rfl⟩

theorem Values.mem_keys_add : ∀ {v : Values} {k val a : String},
    a ∈ (Values.add v k val).map Prod.fst → a = k ∨ a ∈ v.map Prod.fst := by
  intro v
  induction v with
  | nil =>
    intro k val a h
    simp [Values.add] at h
    exact Or.inl h
  | cons e rest ih =>
    intro k val a h
    rcases e with ⟨k', vs⟩
    by_cases hk : k' = k
    · rw [Values.add_cons_eq vs rest val hk, List.map_cons, List.mem_cons] at h
      rcases h with h | h
      · exact Or.inr (by rw [List.map_cons, List.mem_cons]; exact Or.inl h)
      · exact Or.inr (by rw [List.map_cons, List.mem_cons]; exact Or.inr h)
  
    · rw [Values.add_cons_ne vs rest val hk, List.map_cons, List.mem_cons] at h
      rcases h with h | h
      · exact Or.inr (by rw [List.map_cons, List.mem_cons]; exact Or.inl h)
      · rcases ih h with h | h
        · exact Or.inl h
        · exact Or.inr (by rw [List.map_cons, List.mem_cons]; exact Or.inr h)

theorem Values.mem_keys_set : ∀ {v : Values} {k val a : String},
    a ∈ (Values.set v k val).map Prod.fst → a = k ∨ a ∈ v.map Prod.fst := by
  intro v
  induction v with
  | nil =>
    intro k val a h
    simp [Values.set] at h
    exact Or.inl h
  | cons e rest ih =>
    intro k val a h
    rcases e with ⟨k', vs⟩
    by_cases hk : k' = k
    · rw [Values.set_cons_eq vs rest val hk, List.map_cons, List.mem_cons] at h
      rcases h with h | h
      · exact Or.inr (by rw [List.map_cons, List.mem_cons]; exact Or.inl h)
      · exact Or.inr (by rw [List.map_cons, List.mem_cons]; exact Or.inr h)
    · rw [Values.set_cons_ne vs rest val hk, List.map_cons, List.mem_cons] at h
      rcases h with h | h
      · exact Or.inr (by rw [List.map_cons, List.mem_cons]; exact Or.inl h)
      · rcases ih h with h | h
        · exact Or.inl h
        · exact Or.inr (by rw [List.map_cons, List.mem_cons]; exact Or.inr h)

theorem Values.nodupKeys_add : ∀ {v : Values} (k val : String),
    (v.map Prod.fst).Nodup → ((Values.add v k val).map Prod.fst).Nodup := by
  intro v
  induction v with
  | nil => intro k val _; simp [Values.add]
  | cons e rest ih =>
    intro k val h
    rcases e with ⟨k', vs⟩
    rw [List.map_cons, List.nodup_cons] at h
    by_cases hk : k' = k
    · rw [Values.add_cons_eq vs rest val hk, List.map_cons, List.nodup_cons]
      exact ⟨h.1, h.2⟩
    · rw [Values.add_cons_ne vs rest val hk, List.map_cons, List.nodup_cons]
      refine ⟨?_, ih k val h.2⟩
      intro hmem
      rcases Values.mem_keys_add hmem with h1 | h1
      · exact hk h1
      · exact h.1 h1

theorem Values.nodupKeys_set : ∀ {v : Values} (k val : String),
    (v.map Prod.fst).Nodup → ((Values.set v k val).map Prod.fst).Nodup := by
  intro v
  induction v with
  | nil => intro k val _; simp [Values.set]
  | cons e rest ih =>
    intro k val h
    rcases e with ⟨k', vs⟩
    rw [List.map_cons, List.nodup_cons] at h
    by_cases hk : k' = k
    · rw [Values.set_cons_eq vs rest val hk, List.map_cons, List.nodup_cons]
      exact ⟨h.1, h.2⟩
    · rw [Values.set_cons_ne vs rest val hk, List.map_cons, List.nodup_cons]
      refine ⟨?_, ih k val h.2⟩
      intro hmem
      rcases Values.mem_keys_set hmem with h1 | h1
      · exact hk h1
      · exact h.1 h1

theorem Values.graph_add : ∀ (v : Values) (k val : String),
    (Values.graph (Values.add v k val)).Perm (Values.graph v ++ [(k, val)]) := by
  intro v
  induction v with
  | nil => intro k val; simp [Values.add, Values.graph]
  | cons e rest ih =>
    intro k val
    rcases e with ⟨k', vs⟩
    by_cases hk : k' = k
    · subst hk
      rw [Values.add_cons_eq vs rest val rfl, Values.graph_cons, Values.graph_cons,
        List.map_append, List.map_cons, List.map_nil, List.append_assoc,
        List.append_assoc]
      exact List.Perm.append_left _ List.perm_append_comm
    · rw [Values.add_cons_ne vs rest val hk, Values.graph_cons, Values.graph_cons,
        List.append_assoc]
      exact List.Perm.append_left _ (ih k val)

theorem Values.graph_set : ∀ {v : Values}, (v.map Prod.fst).Nodup →
    ∀ (k val : String),
    (Values.graph (Values.set v k val)).Perm
      ((k, val) :: (Values.graph v).filter (fun p => !(p.1 == k))) := by
  intro v
  induction v with
  | nil =>
    intro _ k val
    simp [Values.set, Values.graph]
  | cons e rest ih =>
    intro hnd k val
    rcases e with ⟨k', vs⟩
    rw [List.map_cons, List.nodup_cons] at hnd
    by_cases hk : k' = k
    · subst hk
      rw [Values.set_cons_eq vs rest val rfl, Values.graph_cons, Values.graph_cons,
        List.map_cons, List.map_nil, List.filter_append]
      have h1 : (vs.map (fun x => (k', x))).filter (fun p => !(p.1 == k')) = [] := by
        rw [List.filter_eq_nil_iff]
        intro p hp
        rcases List.mem_map.mp hp with ⟨x, _, rfl⟩
        simp
      have h2 : (Values.graph rest).filter (fun p => !(p.1 == k')) =
          Values.graph rest := by
        rw [List.filter_eq_self]
        intro p hp
        have := Values.mem_keys_of_mem_graph hp
        have hne : p.1 ≠ k' := fun he => hnd.1 (he ▸ this)
        simpa using hne
      rw [h1, h2, List.nil_append]
      exact List.Perm.refl _
    · rw [Values.set_cons_ne vs rest val hk, Values.graph_cons, Values.graph_cons,
        List.filter_append]
      have h1 : (vs.map (fun x => (k', x))).filter (fun p => !(p.1 == k)) =
          vs.map (fun x => (k', x)) := by
        rw [List.filter_eq_self]
        intro p hp
        rcases List.mem_map.mp hp with ⟨x, _, rfl⟩
        simpa using hk
      rw [h1]
      refine List.Perm.trans (List.Perm.append_left _ (ih hnd.2 k val)) ?_
      exact List.perm_middle

theorem Values.graph_foldl_add : ∀ (q : List (String × String)) (v : Values),
    (Values.graph (q.foldl (fun v p => Values.add v p.1 p.2) v)).Perm
      (Values.graph v ++ q) := by
  intro q
  induction q with
  | nil => intro v; simp
  | cons p q ih =>
    intro v
    rw [List.foldl_cons]
    refine List.Perm.trans (ih (Values.add v p.1 p.2)) ?_
    refine List.Perm.trans (List.Perm.append_right q (Values.graph_add v p.1 p.2)) ?_
    rw [List.append_assoc]
    exact List.Perm.refl _

theorem Values.graph_ofPairs (q : List (String × String)) :
    (Values.graph (Values.ofPairs q)).Perm q := by
  have := Values.graph_foldl_add q []
  simpa [Values.ofPairs] using this

theorem Values.nodupKeys_foldl_add : ∀ (q : List (String × String)) (v : Values),
    (v.map Prod.fst).Nodup →
    ((q.foldl (fun v p => Values.add v p.1 p.2) v).map Prod.fst).Nodup := by
  intro q
  induction q with
  | nil => intro v h; simpa using h
  | cons p q ih =>
    intro v h
    rw [List.foldl_cons]
    exact ih _ (Values.nodupKeys_add p.1 p.2 h)

theorem Values.nodupKeys_ofPairs (q : List (String × String)) :
    ((Values.ofPairs q).map Prod.fst).Nodup := by
  have := Values.nodupKeys_foldl_add q [] (by simp)
  simpa [Values.ofPairs] using this

theorem Values.graph_sortByKey (v : Values) :
    (Values.graph (Values.sortByKey v)).Perm (Values.graph v) :=
  List.Perm.flatMap_right _ (List.perm_insertionSort entryKeyLe v)

/-- Permuting graphs is preserved by `Set` on two key-duplicate-free maps. -/
theorem Values.graph_set_congr {v₁ v₂ : Values}
    (h₁ : (v₁.map Prod.fst).Nodup) (h₂ : (v₂.map Prod.fst).Nodup)
    (h : (Values.graph v₁).Perm (Values.graph v₂)) (k val : String) :
    (Values.graph (Values.set v₁ k val)).Perm
      (Values.graph (Values.set v₂ k val)) := by
  refine List.Perm.trans (Values.graph_set h₁ k val) ?_
  refine List.Perm.trans ?_ (Values.graph_set h₂ k val).symm
  exact List.Perm.cons _ (h.filter _)

/-! ### Lemmas about the canonical query string -/

theorem mem_escape_of_mem_encodePair {c : Char} {p : String × String}
    (h : c ∈ (encodePair p).data) :
    c = '=' ∨ ∃ b, b < 256 ∧ c ∈ escByte b := by
  unfold encodePair queryEscape at h
  rw [String.data_append, String.data_append] at h
  rcases List.mem_append.mp h with h | h
  · rcases List.mem_append.mp h with h | h
    · right
      rcases List.mem_flatMap.mp h with ⟨b, hb, hcb⟩
      exact ⟨b, utf8Bytes_lt_256 p.1 b hb, hcb⟩
    · left
      simpa using h
  · right
    rcases List.mem_flatMap.mp h with ⟨b, hb, hcb⟩
    exact ⟨b, utf8Bytes_lt_256 p.2 b hb, hcb⟩

theorem encodePair_no_amp (p : String × String) : '&' ∉ (encodePair p).data := by
  intro h
  rcases mem_escape_of_mem_encodePair h with h | ⟨b, hb, hcb⟩
  · exact absurd h (by decide)
  · exact (escByte_no_amp_nl b hb).1 hcb

theorem encodePair_no_nl (p : String × String) : '\n' ∉ (encodePair p).data := by
  intro h
  rcases mem_escape_of_mem_encodePair h with h | ⟨b, hb, hcb⟩
  · exact absurd h (by decide)
  · exact (escByte_no_amp_nl b hb).2 hcb

theorem strSplit_encode (v : Values)
    (hne : Values.graph (Values.sortByKey v) ≠ []) :
    strSplit '&' (Values.encode v) =
      (Values.graph (Values.sortByKey v)).map encodePair := by
  unfold Values.encode
  apply strSplit_strJoin
  · simpa using hne
  · intro s hs
    rcases List.mem_map.mp hs with ⟨p, _, rfl⟩
    exact encodePair_no_amp p

/-- The canonical query string depends on a `Values` only through the
multiset of its key/value pairs. -/
theorem canonicalQuery_eq_of_graph_perm {v₁ v₂ : Values}
    (h : (Values.graph v₁).Perm (Values.graph v₂)) :
    canonicalQuery v₁ = canonicalQuery v₂ := by
  have h1 : (Values.graph (Values.sortByKey v₁)).Perm
      (Values.graph (Values.sortByKey v₂)) :=
    ((Values.graph_sortByKey v₁).trans h).trans (Values.graph_sortByKey v₂).symm
  by_cases hne : Values.graph (Values.sortByKey v₁) = []
  · have hne2 : Values.graph (Values.sortByKey v₂) = [] := by
      rw [hne] at h1
      exact h1.symm.eq_nil
    unfold canonicalQuery Values.encode
    rw [hne, hne2]
  · have hne2 : Values.graph (Values.sortByKey v₂) ≠ [] := by
      intro h0
      rw [h0] at h1
      exact hne h1.eq_nil
    haveI : IsTotal String strLe := ⟨strLe_total⟩
    haveI : IsTrans String strLe := ⟨strLe_trans⟩
    haveI : IsAntisymm String strLe := ⟨strLe_antisymm⟩
    unfold canonicalQuery
    rw [strSplit_encode v₁ hne, strSplit_encode v₂ hne2]
    have hp : ((Values.graph (Values.sortByKey v₁)).map encodePair).Perm
        ((Values.graph (Values.sortByKey v₂)).map encodePair) := h1.map _
    have hsorted := List.eq_of_perm_of_sorted
      (((List.perm_insertionSort strLe _).trans hp).trans
        (List.perm_insertionSort strLe _).symm)
      (List.sorted_insertionSort strLe _)
      (List.sorted_insertionSort strLe _)
    rw [hsorted]


theorem flatMap_congr_mem {α β : Type} {l : List α} {f g : α → List β}
    (h : ∀ x ∈ l, f x = g x) : l.flatMap f = l.flatMap g := by
  induction l with
  | nil => rfl
  | cons a l ih =>
    rw [List.flatMap_cons, List.flatMap_cons, h a (List.mem_cons_self a l),
      ih (fun x hx => h x (List.mem_cons_of_mem a hx))]

theorem mem_of_mem_flatMap_substChar {l rep : List Char} {ch c : Char}
    (h : c ∈ l.flatMap (substChar ch rep)) : c ∈ rep ∨ c ∈ l := by
  rcases List.mem_flatMap.mp h with ⟨x, hx, hcx⟩
  unfold substChar at hcx
  by_cases hxc : x = ch
  · rw [if_pos hxc] at hcx
    exact Or.inl hcx
  · rw [if_neg hxc] at hcx
    simp at hcx
    exact Or.inr (hcx ▸ hx)

theorem corrections_no_nl {l : List Char} (h : '\n' ∉ l) : '\n' ∉ corrections l := by
  intro hmem
  unfold corrections at hmem
  rcases mem_of_mem_flatMap_substChar hmem with h3 | hmem2
  · exact absurd h3 (by decide)
  · rcases mem_of_mem_flatMap_substChar hmem2 with h2 | hmem1
    · exact absurd h2 (by decide)
    · rcases mem_of_mem_flatMap_substChar hmem1 with h1 | hl
      · exact absurd h1 (by decide)
      · exact h hl

theorem mem_joinSep {sep : Char} : ∀ {l : List (List Char)} {c : Char},
    c ∈ joinSep sep l → c = sep ∨ ∃ s ∈ l, c ∈ s := by
  intro l
  induction l with
  | nil => intro c h; simp [joinSep] at h
  | cons s rest ih =>
    intro c h
    cases rest with
    | nil =>
      exact Or.inr ⟨s, by simp, h⟩
    | cons s2 rest2 =>
      rw [show joinSep sep (s :: s2 :: rest2) = s ++ sep :: joinSep sep (s2 :: rest2)
        from rfl] at h
      rcases List.mem_append.mp h with h | h
      · exact Or.inr ⟨s, by simp, h⟩
      · rcases List.mem_cons.mp h with h | h
        · exact Or.inl h
        · rcases ih h with h | ⟨t, ht, hct⟩
          · exact Or.inl h
          · exact Or.inr ⟨t, by simp [ht], hct⟩

theorem mem_of_mem_splitOnChar {sep : Char} : ∀ {l s : List Char} {c : Char},
    s ∈ splitOnChar sep l → c ∈ s → c ∈ l := by
  intro l
  induction l with
  | nil =>
    intro s c hs hc
    simp [splitOnChar] at hs
    subst hs
    simp at hc
  | cons x rest ih =>
    intro s c hs hc
    simp only [splitOnChar] at hs
    by_cases hx : x = sep
    · rw [if_pos hx] at hs
      rcases List.mem_cons.mp hs with h | h
      · subst h; simp at hc
      · exact List.mem_cons_of_mem x (ih h hc)
    · rw [if_neg hx] at hs
      rcases hr : splitOnChar sep rest with _ | ⟨h0, t0⟩
      · exact absurd hr (splitOnChar_ne_nil sep rest)
      · rw [hr] at hs
        rcases List.mem_cons.mp hs with h | h
        · subst h
          rcases List.mem_cons.mp hc with h | h
          · exact h ▸ List.mem_cons_self x rest
          · exact List.mem_cons_of_mem x (ih (hr ▸ List.mem_cons_self h0 t0) h)
        · exact List.mem_cons_of_mem x (ih (hr ▸ List.mem_cons_of_mem h0 h) hc)

theorem encode_no_nl (v : Values) : '\n' ∉ (Values.encode v).data := by
  intro h
  rcases mem_joinSep h with h | ⟨s, hs, hcs⟩
  · exact absurd h (by decide)
  · rcases List.mem_map.mp hs with ⟨t, ht, rfl⟩
    rcases List.mem_map.mp ht with ⟨p, _, rfl⟩
    exact encodePair_no_nl p hcs

theorem canonicalQuery_no_nl (v : Values) : '\n' ∉ (canonicalQuery v).data := by
  intro hmem
  have hjoin : '\n' ∉ joinSep '&'
      ((List.insertionSort strLe (strSplit '&' (Values.encode v))).map String.data) := by
    intro hj
    rcases mem_joinSep hj with h | ⟨s, hs, hcs⟩
    · exact absurd h (by decide)
    · rcases List.mem_map.mp hs with ⟨t, ht, rfl⟩
      have ht2 : t ∈ strSplit '&' (Values.encode v) :=
        (List.perm_insertionSort strLe _).mem_iff.mp ht
      rcases List.mem_map.mp ht2 with ⟨piece, hpiece, rfl⟩
      exact encode_no_nl v (mem_of_mem_splitOnChar hpiece hcs)
  exact corrections_no_nl hjoin hmem

theorem Values.mem_decodedPairs {v : Values} {p : String × String} :
    p ∈ Values.decodedPairs v ↔ p ∈ Values.graph v :=
  (Values.graph_sortByKey v).mem_iff

theorem Values.mem_graph_set_self {v : Values} (hnd : (v.map Prod.fst).Nodup)
    (k val : String) : (k, val) ∈ Values.graph (Values.set v k val) :=
  ((Values.graph_set hnd k val).mem_iff).mpr (List.mem_cons_self _ _)

theorem Values.mem_graph_set_other {v : Values} (hnd : (v.map Prod.fst).Nodup)
    {k' w : String} (k val : String) (hne : k' ≠ k) :
    (k', w) ∈ Values.graph (Values.set v k val) ↔ (k', w) ∈ Values.graph v := by
  rw [(Values.graph_set hnd k val).mem_iff, List.mem_cons]
  constructor
  · rintro (h | h)
    · injection h with h1 _
      exact absurd h1 hne
    · exact (List.mem_filter.mp h).1
  · intro h
    exact Or.inr (List.mem_filter.mpr ⟨h, by simpa using hne⟩)

theorem Values.filter_key_graph_set {v : Values} (hnd : (v.map Prod.fst).Nodup)
    (k val : String) :
    ((Values.graph (Values.set v k val)).filter (fun p => p.1 == k)).length = 1 := by
  have hperm := (Values.graph_set hnd k val).filter (fun p => p.1 == k)
  rw [hperm.length_eq, List.filter_cons]
  simp only [beq_self_eq_true, if_true, ite_true]
  rw [List.filter_filter]
  have hnil : ((Values.graph v).filter (fun a => (a.1 == k) && !(a.1 == k))) = [] := by
    rw [List.filter_eq_nil_iff]
    intro a _
    simp [Bool.and_not_self]
  rw [hnil]
  rfl

theorem Values.mem_keys_foldl_add : ∀ (q : List (String × String)) (v : Values)
    {a : String},
    a ∈ ((q.foldl (fun v p => Values.add v p.1 p.2) v).map Prod.fst) →
      a ∈ v.map Prod.fst ∨ a ∈ q.map Prod.fst := by
  intro q
  induction q with
  | nil => intro v a h; exact Or.inl h
  | cons p q ih =>
    intro v a h
    rw [List.foldl_cons] at h
    rcases ih _ h with h | h
    · rcases Values.mem_keys_add h with h | h
      · exact Or.inr (by simp [h])
      · exact Or.inl h
    · exact Or.inr (List.mem_cons_of_mem _ h)

theorem Values.mem_keys_ofPairs {q : List (String × String)} {a : String}
    (h : a ∈ (Values.ofPairs q).map Prod.fst) : a ∈ q.map Prod.fst := by
  rcases Values.mem_keys_foldl_add q [] h with h | h
  · simp at h
  · exact h

/-! ### The claims -/

set_option maxRecDepth 100000 in
/-- C1: for credentials accessKeyId "AKIDEXAMPLE" / secretKey "secret",
method GET, host sqs.example.com, path /, query parameters
Action=ReceiveMessage and Version=2009-02-01, and the default profile with
the injected timestamp fixed to 2020-01-01T00:00:00Z, the string-to-sign
computed by `sign` is exactly
"GET\nsqs.example.com\n/\nAWSAccessKeyId=AKIDEXAMPLE&Action=ReceiveMessage&SignatureMethod=HmacSHA256&SignatureVersion=2&Timestamp=2020-01-01T00%3A00%3A00Z&Version=2009-02-01". -/
theorem claim_C1 :
    stringToSignOf (NewContext "AKIDEXAMPLE" "secret") defaultHTTPSigningContext
      "2020-01-01T00:00:00Z"
      { method := "GET", host := "sqs.example.com", path := "/",
        query := [("Action", "ReceiveMessage"), ("Version", "2009-02-01")] } =
    some "GET\nsqs.example.com\n/\nAWSAccessKeyId=AKIDEXAMPLE&Action=ReceiveMessage&SignatureMethod=HmacSHA256&SignatureVersion=2&Timestamp=2020-01-01T00%3A00%3A00Z&Version=2009-02-01" := by
  rfl

/-- C2 (amended): in the string-to-sign, a query value's characters appear
byte for byte as `url.QueryEscape` renders them with the three `sign`
corrections applied on top: a space appears as %20, a literal `+` as %2B
(QueryEscape emits %2B, which the `+`→%20 correction does not touch), a
literal `(` as %28 and a literal `)` as %29 — the last two already produced
by QueryEscape itself.  The first conjunct characterizes the corrected
escaping of every string byte-wise; the remaining conjuncts evaluate it on
the four characters the claim names. -/
theorem claim_C2_amended :
    (∀ s : String, (signCorrections (queryEscape s)).data =
      (utf8Bytes s).flatMap (fun b => if b = 32 then ['%', '2', '0'] else escByte b)) ∧
    signCorrections (queryEscape " ") = "%20" ∧
    signCorrections (queryEscape "+") = "%2B" ∧
    signCorrections (queryEscape "(") = "%28" ∧
    signCorrections (queryEscape ")") = "%29" := by
  refine ⟨?_, by decide, by decide, by decide, by decide⟩
  intro s
  show corrections ((utf8Bytes s).flatMap escByte) = _
  unfold corrections
  rw [List.bind_assoc, List.bind_assoc, List.bind_assoc]
  apply flatMap_congr_mem
  intro b hb
  have hlt := utf8Bytes_lt_256 s b hb
  rw [← List.bind_assoc, ← List.bind_assoc]
  exact corrections_escByte b hlt

set_option maxRecDepth 100000 in
/-- C2 (counterexample to the claim as stated): a query value consisting of
a literal `+` appears in the string-to-sign as %2B, not as the %20 the claim
asserts. -/
theorem claim_C2_counterexample :
    stringToSignOf (NewContext "id" "key") purchaseSigningContext "T"
        { method := "GET", host := "h", path := "/", query := [("k", "+")] } =
      some "GET\nh\n/\naccessKey=id&k=%2B&signatureMethod=HmacSHA256&signatureVersion=2" ∧
    "GET\nh\n/\naccessKey=id&k=%2B&signatureMethod=HmacSHA256&signatureVersion=2" ≠
      "GET\nh\n/\naccessKey=id&k=%20&signatureMethod=HmacSHA256&signatureVersion=2" :=
  ⟨by rfl, by decide⟩

/-- C3: for fixed credentials, profile, method, host, path and injected
timestamp, two query-parameter collections that are permutations of each
other produce the same signature value. -/
theorem claim_C3 (c : Context) (sc : Nat) (now : String) (r₁ r₂ : Request)
    (hm : r₁.method = r₂.method) (hh : r₁.host = r₂.host) (hp : r₁.path = r₂.path)
    (hq : r₁.query.Perm r₂.query) :
    signatureValue c sc now r₁ = signatureValue c sc now r₂ := by
  have hn₁ := Values.nodupKeys_ofPairs r₁.query
  have hn₂ := Values.nodupKeys_ofPairs r₂.query
  have hbase : (Values.graph (Values.ofPairs r₁.query)).Perm
      (Values.graph (Values.ofPairs r₂.query)) :=
    ((Values.graph_ofPairs r₁.query).trans hq).trans (Values.graph_ofPairs r₂.query).symm
  simp only [signatureValue, stringToSignOf, getValues]
  rw [hm, hh, hp]
  by_cases h0 : sc = defaultHTTPSigningContext
  · rw [if_pos h0, if_pos h0]
    have hn₁1 := Values.nodupKeys_set "Timestamp" now hn₁
    have hn₂1 := Values.nodupKeys_set "Timestamp" now hn₂
    have hg1 := Values.graph_set_congr hn₁ hn₂ hbase "Timestamp" now
    have hn₁2 := Values.nodupKeys_set "AWSAccessKeyId" c.keyId hn₁1
    have hn₂2 := Values.nodupKeys_set "AWSAccessKeyId" c.keyId hn₂1
    have hg2 := Values.graph_set_congr hn₁1 hn₂1 hg1 "AWSAccessKeyId" c.keyId
    have hn₁3 := Values.nodupKeys_set "SignatureVersion" "2" hn₁2
    have hn₂3 := Values.nodupKeys_set "SignatureVersion" "2" hn₂2
    have hg3 := Values.graph_set_congr hn₁2 hn₂2 hg2 "SignatureVersion" "2"
    have hg4 := Values.graph_set_congr hn₁3 hn₂3 hg3 "SignatureMethod" "HmacSHA256"
    have hcq := canonicalQuery_eq_of_graph_perm hg4
    simp only [Option.map_some']
    rw [hcq]
  · by_cases h1 : sc = purchaseSigningContext
    · rw [if_neg h0, if_neg h0, if_pos h1, if_pos h1]
      have hn₁1 := Values.nodupKeys_set "accessKey" c.keyId hn₁
      have hn₂1 := Values.nodupKeys_set "accessKey" c.keyId hn₂
      have hg1 := Values.graph_set_congr hn₁ hn₂ hbase "accessKey" c.keyId
      have hn₁2 := Values.nodupKeys_set "signatureVersion" "2" hn₁1
      have hn₂2 := Values.nodupKeys_set "signatureVersion" "2" hn₂1
      have hg2 := Values.graph_set_congr hn₁1 hn₂1 hg1 "signatureVersion" "2"
      have hg3 := Values.graph_set_congr hn₁2 hn₂2 hg2 "signatureMethod" "HmacSHA256"
      have hcq := canonicalQuery_eq_of_graph_perm hg3
      simp only [Option.map_some']
      rw [hcq]
    · rw [if_neg h0, if_neg h0, if_neg h1, if_neg h1]

/-- C3 witness: the permutation hypothesis holds of two concrete reordered
query lists and the signature values agree. -/
theorem claim_C3_witness :
    (([("b", "2"), ("a", "1")] : List (String × String)).Perm
      [("a", "1"), ("b", "2")]) ∧
    signatureValue (NewContext "id" "key") defaultHTTPSigningContext "T"
        { method := "GET", host := "h", path := "/", query := [("b", "2"), ("a", "1")] } =
      signatureValue (NewContext "id" "key") defaultHTTPSigningContext "T"
        { method := "GET", host := "h", path := "/", query := [("a", "1"), ("b", "2")] } :=
  ⟨by decide,
    claim_C3 (NewContext "id" "key") defaultHTTPSigningContext "T" _ _
      rfl rfl rfl (by decide)⟩

/-- C4 (amended): the string-to-sign splits on the newline character into
exactly the four components method (as supplied in the request — the signer
does not uppercase it), host, path, and corrected query string: each pair of
neighbours is separated by exactly one newline and there is no trailing
newline. -/
theorem claim_C4_amended (v : Values) (method host path : String)
    (hm : '\n' ∉ method.data) (hh : '\n' ∉ host.data) (hp : '\n' ∉ path.data) :
    strSplit '\n' (mkStringToSign method host path (canonicalQuery v)) =
      [method, host, path, canonicalQuery v] := by
  unfold strSplit
  have hdata : (mkStringToSign method host path (canonicalQuery v)).data =
      method.data ++ '\n' :: (host.data ++ '\n' :: (path.data ++ '\n' ::
        (canonicalQuery v).data)) := by
    simp only [mkStringToSign, String.data_append,
      show ("\n" : String).data = ['\n'] from rfl, List.append_assoc,
      List.cons_append, List.nil_append, List.singleton_append]
  rw [hdata, splitOnChar_append_sep _ hm, splitOnChar_append_sep _ hh,
    splitOnChar_append_sep _ hp, splitOnChar_no_sep (canonicalQuery_no_nl v)]
  rfl

/-- C4 witness: the newline-freeness hypotheses hold of concrete components
and the string-to-sign splits into exactly those four components. -/
theorem claim_C4_witness :
    ('\n' ∉ ("GET" : String).data ∧ '\n' ∉ ("h" : String).data ∧
      '\n' ∉ ("/" : String).data) ∧
    strSplit '\n' (mkStringToSign "GET" "h" "/" (canonicalQuery [("a", ["b c"])])) =
      ["GET", "h", "/", canonicalQuery [("a", ["b c"])]] :=
  ⟨⟨by decide, by decide, by decide⟩,
    claim_C4_amended [("a", ["b c"])] "GET" "h" "/" (by decide) (by decide) (by decide)⟩

set_option maxRecDepth 100000 in
/-- C4 (counterexample to the claim as stated): for a request whose method is
the lowercase "get", the string-to-sign starts with "get", not the uppercase
"GET" the claim asserts. -/
theorem claim_C4_counterexample :
    stringToSignOf (NewContext "id" "key") purchaseSigningContext "T"
        { method := "get", host := "h", path := "/", query := [] } =
      some "get\nh\n/\naccessKey=id&signatureMethod=HmacSHA256&signatureVersion=2" ∧
    "get\nh\n/\naccessKey=id&signatureMethod=HmacSHA256&signatureVersion=2" ≠
      "GET\nh\n/\naccessKey=id&signatureMethod=HmacSHA256&signatureVersion=2" :=
  ⟨by rfl, by decide⟩

/-- C5 (amended): signing with the default profile always yields a request
whose query contains AWSAccessKeyId, SignatureVersion=2,
SignatureMethod=HmacSHA256 and Signature; signing with the purchase profile
yields accessKey, signatureVersion=2, signatureMethod=HmacSHA256 and
signature, and — provided the incoming request's own query contains none of
the uppercase-named fields — the result contains none of them either (the
purchase profile injects no uppercase field, but it also does not delete one
that the caller already supplied). -/
theorem claim_C5_amended (c : Context) (now : String) (r : Request) :
    (∃ r', sign c defaultHTTPSigningContext now r = some r' ∧
      ("AWSAccessKeyId", c.keyId) ∈ r'.query ∧
      ("SignatureVersion", "2") ∈ r'.query ∧
      ("SignatureMethod", "HmacSHA256") ∈ r'.query ∧
      ∃ s, ("Signature", s) ∈ r'.query) ∧
    ((∀ p ∈ r.query, p.1 ∉ uppercaseSigningFields) →
      ∃ r', sign c purchaseSigningContext now r = some r' ∧
        ("accessKey", c.keyId) ∈ r'.query ∧
        ("signatureVersion", "2") ∈ r'.query ∧
        ("signatureMethod", "HmacSHA256") ∈ r'.query ∧
        (∃ s, ("signature", s) ∈ r'.query) ∧
        ∀ p ∈ r'.query, p.1 ∉ uppercaseSigningFields) := by
  have hn0 := Values.nodupKeys_ofPairs r.query
  constructor
  · have hn1 := Values.nodupKeys_set "Timestamp" now hn0
    have hn2 := Values.nodupKeys_set "AWSAccessKeyId" c.keyId hn1
    have hn3 := Values.nodupKeys_set "SignatureVersion" "2" hn2
    have hn4 := Values.nodupKeys_set "SignatureMethod" "HmacSHA256" hn3
    refine ⟨_, rfl, ?_, ?_, ?_, ?_⟩
    · rw [Values.mem_decodedPairs,
        Values.mem_graph_set_other hn4 "Signature" _ (by decide),
        Values.mem_graph_set_other hn3 "SignatureMethod" _ (by decide),
        Values.mem_graph_set_other hn2 "SignatureVersion" _ (by decide)]
      exact Values.mem_graph_set_self hn1 "AWSAccessKeyId" c.keyId
    · rw [Values.mem_decodedPairs,
        Values.mem_graph_set_other hn4 "Signature" _ (by decide),
        Values.mem_graph_set_other hn3 "SignatureMethod" _ (by decide)]
      exact Values.mem_graph_set_self hn2 "SignatureVersion" "2"
    · rw [Values.mem_decodedPairs,
        Values.mem_graph_set_other hn4 "Signature" _ (by decide)]
      exact Values.mem_graph_set_self hn3 "SignatureMethod" "HmacSHA256"
    · exact ⟨_, (Values.mem_decodedPairs).mpr
        (Values.mem_graph_set_self hn4 "Signature" _)⟩
  · intro hnone
    have hn1 := Values.nodupKeys_set "accessKey" c.keyId hn0
    have hn2 := Values.nodupKeys_set "signatureVersion" "2" hn1
    have hn3 := Values.nodupKeys_set "signatureMethod" "HmacSHA256" hn2
    refine ⟨_, rfl, ?_, ?_, ?_, ?_, ?_⟩
    · rw [Values.mem_decodedPairs,
        Values.mem_graph_set_other hn3 "signature" _ (by decide),
        Values.mem_graph_set_other hn2 "signatureMethod" _ (by decide),
        Values.mem_graph_set_other hn1 "signatureVersion" _ (by decide)]
      exact Values.mem_graph_set_self hn0 "accessKey" c.keyId
    · rw [Values.mem_decodedPairs,
        Values.mem_graph_set_other hn3 "signature" _ (by decide),
        Values.mem_graph_set_other hn2 "signatureMethod" _ (by decide)]
      exact Values.mem_graph_set_self hn1 "signatureVersion" "2"
    · rw [Values.mem_decodedPairs,
        Values.mem_graph_set_other hn3 "signature" _ (by decide)]
      exact Values.mem_graph_set_self hn2 "signatureMethod" "HmacSHA256"
    · exact ⟨_, (Values.mem_decodedPairs).mpr
        (Values.mem_graph_set_self hn3 "signature" _)⟩
    · intro p hp
      rw [Values.mem_decodedPairs] at hp
      have hkey := Values.mem_keys_of_mem_graph hp
      rcases Values.mem_keys_set hkey with h | h
      · rw [h]; decide
      rcases Values.mem_keys_set h with h | h
      · rw [h]; decide
      rcases Values.mem_keys_set h with h | h
      · rw [h]; decide
      rcases Values.mem_keys_set h with h | h
      · rw [h]; decide
      have hbase := Values.mem_keys_ofPairs h
      rcases List.mem_map.mp hbase with ⟨p0, hp0, hfst⟩
      exact hfst ▸ hnone p0 hp0

set_option maxRecDepth 100000 in
/-- C5 (counterexample to the claim as stated): signing a request whose query
already contains Timestamp=X with the purchase profile leaves that uppercase
field in the resulting query parameters. -/
theorem claim_C5_counterexample :
    ("Timestamp", "X") ∈ ((sign (NewContext "id" "key") purchaseSigningContext "T"
      { method := "GET", host := "h", path := "/",
        query := [("Timestamp", "X")] }).elim [] Request.query) := by
  decide

/-- C5 witness: a concrete request free of the uppercase fields, for which
purchase signing yields the lowercase fields and none of the uppercase
ones. -/
theorem claim_C5_witness :
    (∀ p ∈ ([("k", "v")] : List (String × String)), p.1 ∉ uppercaseSigningFields) ∧
    (∃ r', sign (NewContext "id" "key") purchaseSigningContext "T"
        { method := "GET", host := "h", path := "/", query := [("k", "v")] } = some r' ∧
      ("accessKey", (NewContext "id" "key").keyId) ∈ r'.query ∧
      ("signatureVersion", "2") ∈ r'.query ∧
      ("signatureMethod", "HmacSHA256") ∈ r'.query ∧
      (∃ s, ("signature", s) ∈ r'.query) ∧
      ∀ p ∈ r'.query, p.1 ∉ uppercaseSigningFields) :=
  ⟨by decide,
    (claim_C5_amended (NewContext "id" "key") "T"
      { method := "GET", host := "h", path := "/", query := [("k", "v")] }).2 (by decide)⟩

/-- C6: for both exposed profile identifiers, `sign` always produces a signed
request: the fatal unknown-profile branch (modeled as `none`) is never
taken. -/
theorem claim_C6 (c : Context) (now : String) (r : Request) :
    (sign c defaultHTTPSigningContext now r).isSome = true ∧
    (sign c purchaseSigningContext now r).isSome = true := ⟨rfl, rfl⟩

/-- C7: signing with the purchase profile injects no clock-derived value, so
it does not depend on the injected timestamp and identical inputs always
yield identical signed outputs. -/
theorem claim_C7 (c : Context) (now1 now2 : String) (r : Request) :
    sign c purchaseSigningContext now1 r = sign c purchaseSigningContext now2 r := rfl

/-- C8: signing a request again with the same profile overwrites the
profile's signature field: the resulting query parameters hold exactly one
value under that field name, not two (stated for a request that already
carries the field, for both profiles). -/
theorem claim_C8 (c : Context) (now : String) (r : Request) (s t : String) :
    (("Signature", s) ∈ r.query →
      ∃ r', sign c defaultHTTPSigningContext now r = some r' ∧
        (r'.query.filter (fun p => p.1 == "Signature")).length = 1) ∧
    (("signature", t) ∈ r.query →
      ∃ r', sign c purchaseSigningContext now r = some r' ∧
        (r'.query.filter (fun p => p.1 == "signature")).length = 1) := by
  have hn0 := Values.nodupKeys_ofPairs r.query
  constructor
  · intro _
    have hn1 := Values.nodupKeys_set "Timestamp" now hn0
    have hn2 := Values.nodupKeys_set "AWSAccessKeyId" c.keyId hn1
    have hn3 := Values.nodupKeys_set "SignatureVersion" "2" hn2
    have hn4 := Values.nodupKeys_set "SignatureMethod" "HmacSHA256" hn3
    refine ⟨_, rfl, ?_⟩
    simp only [Values.decodedPairs]
    rw [List.Perm.length_eq (List.Perm.filter _ (Values.graph_sortByKey _))]
    exact Values.filter_key_graph_set hn4 "Signature" _
  · intro _
    have hn1 := Values.nodupKeys_set "accessKey" c.keyId hn0
    have hn2 := Values.nodupKeys_set "signatureVersion" "2" hn1
    have hn3 := Values.nodupKeys_set "signatureMethod" "HmacSHA256" hn2
    refine ⟨_, rfl, ?_⟩
    simp only [Values.decodedPairs]
    rw [List.Perm.length_eq (List.Perm.filter _ (Values.graph_sortByKey _))]
    exact Values.filter_key_graph_set hn3 "signature" _

/-- C8 witness: an already-signed concrete request (carrying both signature
fields), re-signed with each profile, ends up with exactly one value under
the profile's signature field. -/
theorem claim_C8_witness :
    (("Signature", "old") ∈
      ([("Signature", "old"), ("signature", "old2")] : List (String × String)) ∧
     ("signature", "old2") ∈
      ([("Signature", "old"), ("signature", "old2")] : List (String × String))) ∧
    (∃ r', sign (NewContext "id" "key") defaultHTTPSigningContext "T"
        { method := "GET", host := "h", path := "/",
          query := [("Signature", "old"), ("signature", "old2")] } = some r' ∧
      (r'.query.filter (fun p => p.1 == "Signature")).length = 1) ∧
    (∃ r', sign (NewContext "id" "key") purchaseSigningContext "T"
        { method := "GET", host := "h", path := "/",
          query := [("Signature", "old"), ("signature", "old2")] } = some r' ∧
      (r'.query.filter (fun p => p.1 == "signature")).length = 1) :=
  ⟨⟨by decide, by decide⟩,
    (claim_C8 (NewContext "id" "key") "T"
      { method := "GET", host := "h", path := "/",
        query := [("Signature", "old"), ("signature", "old2")] } "old" "old2").1
      (by decide),
    (claim_C8 (NewContext "id" "key") "T"
      { method := "GET", host := "h", path := "/",
        query := [("Signature", "old"), ("signature", "old2")] } "old" "old2").2
      (by decide)⟩

/-- C9: `sign` mutates only the request's query parameters: whenever it
produces a signed request, that request's method, host and path equal those
of the input request (the credential context is passed by value and never
written). -/
theorem claim_C9 (c : Context) (sc : Nat) (now : String) (r : Request) :
    (sign c sc now r).elim True
      (fun r' => r'.method = r.method ∧ r'.host = r.host ∧ r'.path = r.path) := by
  cases hg : getValues sc c now r with
  | none => simp [sign, hg]
  | some params =>
    cases ha : addSignature sc params (signatureOf c
        (mkStringToSign r.method r.host r.path (canonicalQuery params))) with
    | none => simp [sign, hg, ha]
    | some params2 => simp [sign, hg, ha]

/-- C10: `ReceiveMessages` passes its argument validation exactly when the
whole-second value of the wait duration lies in [0, 20] and max lies in
[0, 10]; outside those bounds it returns an error before building, signing
or issuing any request, and the boundary values 0, 20 (wait) and 0, 10
(max) are accepted. -/
theorem claim_C10 (q : Queue) (c : Context) (max waitNs : Int) :
    (Queue.receiveMessages q c max waitNs).isOk = true ↔
      (0 ≤ Int.tdiv waitNs 1000000000 ∧ Int.tdiv waitNs 1000000000 ≤ 20 ∧
        0 ≤ max ∧ max ≤ 10) := by
  simp only [Queue.receiveMessages]
  by_cases h1 : Int.tdiv waitNs 1000000000 < 0 ∨ 20 < Int.tdiv waitNs 1000000000
  · rw [if_pos h1]
    constructor
    · intro hok
      exact Bool.noConfusion hok
    · intro hcon
      rcases h1 with h | h
      · exact absurd hcon.1 (by omega)
      · exact absurd hcon.2.1 (by omega)
  · rw [if_neg h1]
    by_cases h2 : max < 0 ∨ 10 < max
    · rw [if_pos h2]
      constructor
      · intro hok
        exact Bool.noConfusion hok
      · intro hcon
        rcases h2 with h | h
        · exact absurd hcon.2.2.1 (by omega)
        · exact absurd hcon.2.2.2 (by omega)
    · rw [if_neg h2]
      have hb1 := not_or.mp h1
      have hb2 := not_or.mp h2
      constructor
      · intro _
        exact ⟨by omega, by omega, by omega, by omega⟩
      · intro _
        rfl
